import Mathlib

/-!
Verification of the CaptionsPlease video-captioning pipeline.

This file gives a shallow embedding of the pipeline's core algorithms:
the timeline remapper (`adjustTimestamp`), the segment merger
(`generateCutsData`), caption timing generation (`generateCaptionTiming`),
page lookup (`findCurrentPage`), position keyframe interpolation
(`getInterpolatedPosition`), the FFmpeg filter builder
(`buildFFmpegFilter`), and the project lifecycle manager
(`createProject` / `archiveProject` / `listProjects`).

JavaScript numbers holding millisecond timestamps and frame indices are
embedded as `Int`; numbers holding seconds and screen positions are
embedded as `ℚ`.  `Math.round` is embedded as `jsRound`
(round half toward positive infinity, as in JavaScript).
-/

namespace CaptionsPlease

/-- JavaScript `Math.round`: floor of `q + 1/2` (half rounds up). -/
def jsRound (q : ℚ) : Int := Int.floor (q + 1/2)

/-- A span of the original timeline scheduled for removal (`TimeSegment`). -/
structure TimeSegment where
  startMs : Int
  endMs : Int
  reason : String
  deriving DecidableEq, Repr

/-- Length in milliseconds of a segment. -/
def segLen (s : TimeSegment) : Int := s.endMs - s.startMs

/-!
## Timeline remapper (`adjustTimestamp`, 04-generate-timing)

```js
let adjustment = 0;
for (const seg of removedSegments) {
  if (seg.endMs <= originalMs) { adjustment += seg.endMs - seg.startMs; }
  else if (seg.startMs < originalMs) { adjustment += originalMs - seg.startMs; }
}
return originalMs - adjustment;
```
-/

/-- One loop iteration of `adjustTimestamp`'s accumulation. -/
def adjStep (originalMs : Int) (adj : Int) (seg : TimeSegment) : Int :=
  if seg.endMs ≤ originalMs then adj + (seg.endMs - seg.startMs)
  else if seg.startMs < originalMs then adj + (originalMs - seg.startMs)
  else adj

/-- `adjustTimestamp` from `04-generate-timing.ts`. -/
def adjustTimestamp (originalMs : Int) (removedSegments : List TimeSegment) : Int :=
  originalMs - removedSegments.foldl (adjStep originalMs) 0

/-- The contribution of a single removed segment to the adjustment at `t`. -/
def cutBefore (t : Int) (seg : TimeSegment) : Int :=
  if seg.endMs ≤ t then seg.endMs - seg.startMs
  else if seg.startMs < t then t - seg.startMs
  else 0

/-- Total adjustment at `t`, as a sum of per-segment contributions. -/
def adjSum (t : Int) : List TimeSegment → Int
  | [] => 0
  | s :: rest => cutBefore t s + adjSum t rest

theorem foldl_adjStep (t : Int) (l : List TimeSegment) (init : Int) :
    l.foldl (adjStep t) init = init + adjSum t l := by
  induction l generalizing init with
  | nil => simp [adjSum]
  | cons s rest ih =>
      simp only [List.foldl_cons, adjSum, ih, adjStep, cutBefore]
      split <;> [ring; (split <;> ring)]

theorem adjustTimestamp_eq (t : Int) (l : List TimeSegment) :
    adjustTimestamp t l = t - adjSum t l := by
  simp [adjustTimestamp, foldl_adjStep]

/-- A cut plan whose segments are sorted ascending, pairwise
non-overlapping, and lie within `[B, +∞)` (each segment nondegenerate). -/
def SegsValid (B : Int) : List TimeSegment → Prop
  | [] => True
  | s :: rest => B ≤ s.startMs ∧ s.startMs ≤ s.endMs ∧ SegsValid s.endMs rest

theorem cutBefore_mono {t₁ t₂ : Int} (seg : TimeSegment)
    (hseg : seg.startMs ≤ seg.endMs) (h : t₁ ≤ t₂) :
    cutBefore t₁ seg ≤ cutBefore t₂ seg := by
  unfold cutBefore
  split_ifs <;> omega

theorem cutBefore_lipschitz {t₁ t₂ : Int} (seg : TimeSegment) (h : t₁ ≤ t₂) :
    cutBefore t₂ seg - cutBefore t₁ seg ≤ t₂ - t₁ := by
  unfold cutBefore
  split_ifs <;> omega

theorem adjSum_eq_zero {B t : Int} {l : List TimeSegment}
    (hv : SegsValid B l) (ht : t ≤ B) : adjSum t l = 0 := by
  induction l generalizing B with
  | nil => rfl
  | cons s rest ih =>
      obtain ⟨h1, h2, h3⟩ := hv
      have hrest : adjSum t rest = 0 := ih h3 (by omega)
      simp only [adjSum, hrest, cutBefore]
      split
      · omega
      · split <;> omega

theorem adjSum_le {B t : Int} {l : List TimeSegment}
    (hv : SegsValid B l) (ht : B ≤ t) : adjSum t l ≤ t - B := by
  induction l generalizing B with
  | nil => simp [adjSum]; omega
  | cons s rest ih =>
      obtain ⟨h1, h2, h3⟩ := hv
      simp only [adjSum]
      by_cases hc : t ≤ s.endMs
      · have hz : adjSum t rest = 0 := adjSum_eq_zero h3 hc
        unfold cutBefore
        split <;> [omega; (split <;> omega)]
      · have hr : adjSum t rest ≤ t - s.endMs := ih h3 (by omega)
        unfold cutBefore
        split <;> [omega; (split <;> omega)]

theorem adjSum_mono {B t₁ t₂ : Int} {l : List TimeSegment}
    (hv : SegsValid B l) (h : t₁ ≤ t₂) : adjSum t₁ l ≤ adjSum t₂ l := by
  induction l generalizing B with
  | nil => simp [adjSum]
  | cons s rest ih =>
      obtain ⟨h1, h2, h3⟩ := hv
      simp only [adjSum]
      have := cutBefore_mono s h2 h
      have := ih h3
      omega

theorem adjSum_lipschitz {B t₁ t₂ : Int} {l : List TimeSegment}
    (hv : SegsValid B l) (h : t₁ ≤ t₂) :
    adjSum t₂ l - adjSum t₁ l ≤ t₂ - t₁ := by
  induction l generalizing B t₁ t₂ with
  | nil => simp [adjSum]; omega
  | cons s rest ih =>
      obtain ⟨h1, h2, h3⟩ := hv
      simp only [adjSum]
      by_cases hc1 : s.endMs ≤ t₁
      · -- the head segment contributes its full length at both times
        have hcb : cutBefore t₁ s = cutBefore t₂ s := by
          unfold cutBefore; split <;> split <;> omega
        have hih : adjSum t₂ rest - adjSum t₁ rest ≤ t₂ - t₁ := ih h3 h
        omega
      · by_cases hc2 : t₂ ≤ s.endMs
        · -- both times are at or before the head segment's end:
          -- the tail contributes nothing at either time
          have hz1 : adjSum t₁ rest = 0 := adjSum_eq_zero h3 (by omega)
          have hz2 : adjSum t₂ rest = 0 := adjSum_eq_zero h3 hc2
          have := cutBefore_lipschitz s h
          omega
        · -- the times straddle the head segment's end: split at it
          have hz1 : adjSum t₁ rest = 0 := adjSum_eq_zero h3 (by omega)
          have hmid : cutBefore t₂ s = cutBefore s.endMs s := by
            unfold cutBefore; split <;> split <;> omega
          have hcb : cutBefore s.endMs s - cutBefore t₁ s ≤ s.endMs - t₁ :=
            cutBefore_lipschitz s (by omega)
          have hr : adjSum t₂ rest - adjSum s.endMs rest ≤ t₂ - s.endMs :=
            ih h3 (by omega)
          have hz3 : adjSum s.endMs rest = 0 := adjSum_eq_zero h3 (by omega)
          omega

/-- **C1.** For every cut plan whose segments are sorted ascending,
pairwise non-overlapping, and lie within `[0, +∞)`, the timestamp remap
`adjustTimestamp` is monotonically non-decreasing in its input, and its
output is `≥ 0` for every input timestamp `≥ 0`. -/
theorem adjustTimestamp_monotone_nonneg (segs : List TimeSegment)
    (hv : SegsValid 0 segs) :
    (∀ t₁ t₂ : Int, t₁ ≤ t₂ →
      adjustTimestamp t₁ segs ≤ adjustTimestamp t₂ segs) ∧
    (∀ t : Int, 0 ≤ t → 0 ≤ adjustTimestamp t segs) := by
  constructor
  · intro t₁ t₂ h
    rw [adjustTimestamp_eq, adjustTimestamp_eq]
    have := adjSum_lipschitz hv h
    omega
  · intro t ht
    rw [adjustTimestamp_eq]
    have := adjSum_le hv ht
    omega

/-- Witness for C1 on a concrete valid cut plan. -/
theorem adjustTimestamp_monotone_nonneg_witness :
    adjustTimestamp 900 [⟨100, 300, "a"⟩, ⟨500, 600, "b"⟩] ≤
      adjustTimestamp 1000 [⟨100, 300, "a"⟩, ⟨500, 600, "b"⟩] ∧
    0 ≤ adjustTimestamp 1000 [⟨100, 300, "a"⟩, ⟨500, 600, "b"⟩] := by
  have h := adjustTimestamp_monotone_nonneg
    [⟨100, 300, "a"⟩, ⟨500, 600, "b"⟩]
    (by refine ⟨by norm_num, by norm_num, by norm_num, by norm_num, trivial⟩)
  exact ⟨h.1 900 1000 (by norm_num), h.2 1000 (by norm_num)⟩


/-!
## Segment merger (`generateCutsData`, 02-analyze-fillers)
-/

/-- A detected filler word (`FillerWord`). -/
structure FillerWord where
  word : String
  startMs : Int
  endMs : Int
  index : Nat
  autoRemove : Bool
  deriving DecidableEq, Repr

/-- A detected pause between words (`Pause`). -/
structure Pause where
  startMs : Int
  endMs : Int
  durationMs : Int
  afterWordIndex : Nat
  autoRemove : Bool
  deriving DecidableEq, Repr

/-- The cuts artifact (`CutsData`). -/
structure CutsData where
  inputFile : String
  segmentsToRemove : List TimeSegment
  totalCutDurationMs : Int
  deriving DecidableEq, Repr

/-- Removal segments contributed by filler words: one full-interval
segment per filler marked `autoRemove`. -/
def fillerSegments : List FillerWord → List TimeSegment
  | [] => []
  | f :: rest =>
    if f.autoRemove then
      ⟨f.startMs, f.endMs, "filler: \"" ++ f.word ++ "\""⟩ :: fillerSegments rest
    else fillerSegments rest

/-- The 200 ms of a removed pause kept at each end (`keepMs`). -/
def keepMs : Int := 200

/-- Removal segments contributed by pauses: pauses marked `autoRemove`
whose duration exceeds `keepMs * 2` contribute their interval trimmed by
`keepMs` at each end. -/
def pauseSegments : List Pause → List TimeSegment
  | [] => []
  | p :: rest =>
    if p.autoRemove then
      if p.durationMs > keepMs * 2 then
        ⟨p.startMs + keepMs, p.endMs - keepMs,
          "pause: " ++ toString p.durationMs ++ "ms"⟩ :: pauseSegments rest
      else pauseSegments rest
    else pauseSegments rest

/-- One step of the merging loop, on a reversed accumulator (the head of
`acc` is the imperative loop's `merged[merged.length - 1]`). -/
def mergeInto (acc : List TimeSegment) (seg : TimeSegment) : List TimeSegment :=
  match acc with
  | [] => [seg]
  | last :: rest =>
    if seg.startMs ≤ last.endMs then
      ⟨last.startMs, max last.endMs seg.endMs,
        last.reason ++ "; " ++ seg.reason⟩ :: rest
    else seg :: last :: rest

/-- Sort candidate removal segments by `startMs` (stable, as the
JavaScript `Array.prototype.sort` comparator `a.startMs - b.startMs` is)
and merge overlapping ones. -/
def sortAndMerge (segs : List TimeSegment) : List TimeSegment :=
  ((segs.mergeSort (fun a b => a.startMs ≤ b.startMs)).foldl mergeInto []).reverse

/-- `merged.reduce((sum, seg) => sum + (seg.endMs - seg.startMs), 0)`. -/
def totalCutOf (merged : List TimeSegment) : Int :=
  merged.foldl (fun sum seg => sum + (seg.endMs - seg.startMs)) 0

/-- `generateCutsData` from `02-analyze-fillers.ts`. -/
def generateCutsData (inputFile : String) (fillerWords : List FillerWord)
    (pauses : List Pause) : CutsData :=
  let merged := sortAndMerge (fillerSegments fillerWords ++ pauseSegments pauses)
  { inputFile := inputFile
    segmentsToRemove := merged
    totalCutDurationMs := totalCutOf merged }

theorem totalCutOf_go (l : List TimeSegment) (init : Int) :
    l.foldl (fun sum seg => sum + (seg.endMs - seg.startMs)) init
      = init + (l.map segLen).sum := by
  induction l generalizing init with
  | nil => simp
  | cons s rest ih => simp [ih, segLen]; ring

theorem totalCutOf_eq (l : List TimeSegment) :
    totalCutOf l = (l.map segLen).sum := by
  simp [totalCutOf, totalCutOf_go]

/-- Invariant of the merging loop's reversed accumulator: segments are
nondegenerate and, read from the head, strictly separated downward. -/
def AccInv (acc : List TimeSegment) : Prop :=
  (∀ s ∈ acc, s.startMs < s.endMs) ∧
  List.Chain' (fun b a => a.endMs < b.startMs) acc

theorem mergeInto_inv {acc : List TimeSegment} {seg : TimeSegment}
    (hinv : AccInv acc) (hseg : seg.startMs < seg.endMs)
    (hge : ∀ s ∈ acc, s.startMs ≤ seg.startMs) :
    AccInv (mergeInto acc seg) ∧
    (∀ s ∈ mergeInto acc seg, s.startMs ≤ seg.startMs) := by
  obtain ⟨hnd, hchain⟩ := hinv
  match acc with
  | [] =>
      refine ⟨⟨?_, ?_⟩, ?_⟩ <;> simp [mergeInto]
      · exact hseg
  | last :: rest =>
      simp only [mergeInto]
      split
      · -- overlapping: extend the accumulated head segment
        rename_i hover
        have hlast := hnd last (by simp)
        have hlastle := hge last (by simp)
        constructor
        · constructor
          · intro s hs
            rcases List.mem_cons.1 hs with h | h
            · subst h; simp; omega
            · exact hnd s (by simp [h])
          · rcases rest with _ | ⟨r, rest'⟩
            · simp
            · have := hchain
              simp only [List.chain'_cons] at this ⊢
              exact ⟨by simpa using this.1, this.2⟩
        · intro s hs
          rcases List.mem_cons.1 hs with h | h
          · subst h; simpa using hlastle
          · have := hge s (by simp [h]); omega
      · -- disjoint: push the new segment
        rename_i hover
        refine ⟨⟨?_, ?_⟩, ?_⟩
        · intro s hs
          rcases List.mem_cons.1 hs with h | h
          · subst h; exact hseg
          · exact hnd s h
        · simp only [List.chain'_cons]
          exact ⟨by omega, hchain⟩
        · intro s hs
          rcases List.mem_cons.1 hs with h | h
          · subst h; omega
          · have := hge s h
            omega

theorem foldl_mergeInto_inv {l acc : List TimeSegment}
    (hsorted : l.Pairwise (fun a b => a.startMs ≤ b.startMs))
    (hnd : ∀ s ∈ l, s.startMs < s.endMs)
    (hinv : AccInv acc)
    (hge : ∀ s ∈ acc, ∀ x ∈ l, s.startMs ≤ x.startMs) :
    AccInv (l.foldl mergeInto acc) := by
  induction l generalizing acc with
  | nil => simpa using hinv
  | cons x rest ih =>
      simp only [List.foldl_cons]
      have hx := hnd x (by simp)
      have step := mergeInto_inv hinv hx (fun s hs => hge s hs x (by simp))
      refine ih hsorted.of_cons (fun s hs => hnd s (by simp [hs])) step.1 ?_
      intro s hs y hy
      have h1 := step.2 s hs
      have h2 := (List.pairwise_cons.1 hsorted).1 y hy
      omega

theorem chain_sep_pairwise : ∀ l : List TimeSegment,
    (∀ s ∈ l, s.startMs < s.endMs) →
    List.Chain' (fun a b => a.endMs < b.startMs) l →
    List.Pairwise (fun a b => a.endMs < b.startMs) l
  | [], _, _ => List.Pairwise.nil
  | a :: l, hnd, hchain => by
      have htail := chain_sep_pairwise l (fun s hs => hnd s (by simp [hs]))
        hchain.tail
      refine List.pairwise_cons.2 ⟨?_, htail⟩
      intro b hb
      match l, hb with
      | c :: l', hb =>
          have hac : a.endMs < c.startMs := (List.chain'_cons.1 hchain).1
          rcases List.mem_cons.1 hb with h | h
          · subst h; exact hac
          · have hcb : c.endMs < b.startMs :=
              (List.pairwise_cons.1 htail).1 b h
            have hc := hnd c (by simp)
            omega

/-- **C2.** The segment merger of `generateCutsData`, applied to any
finite list of candidate removal segments each with
`startMs < endMs`, outputs a list sorted strictly ascending by `startMs`
whose segments are pairwise non-overlapping and non-touching (every later
segment starts strictly after the previous one ends), and the
`totalCutDurationMs` it returns is the sum of `endMs - startMs` over the
merged output segments (not over the raw inputs). -/
theorem sortAndMerge_sound (segs : List TimeSegment)
    (hnd : ∀ s ∈ segs, s.startMs < s.endMs) :
    (sortAndMerge segs).Pairwise (fun a b => a.startMs < b.startMs) ∧
    (sortAndMerge segs).Pairwise (fun a b => a.endMs < b.startMs) ∧
    (∀ s ∈ sortAndMerge segs, s.startMs < s.endMs) ∧
    totalCutOf (sortAndMerge segs) = ((sortAndMerge segs).map segLen).sum := by
  have hsortedB := @List.sorted_mergeSort TimeSegment
    (fun a b => decide (a.startMs ≤ b.startMs))
    (fun a b c hab hbc => by
      simp only [decide_eq_true_eq] at *; omega)
    (fun a b => by
      simp only [Bool.or_eq_true, decide_eq_true_eq]; omega)
    segs
  have hsorted : (segs.mergeSort
      (fun a b => a.startMs ≤ b.startMs)).Pairwise
      (fun a b => a.startMs ≤ b.startMs) := by
    exact hsortedB.imp (fun h => by simpa using h)
  have hperm := List.mergeSort_perm segs
    (fun a b => decide (a.startMs ≤ b.startMs))
  have hndSorted : ∀ s ∈ segs.mergeSort (fun a b => a.startMs ≤ b.startMs),
      s.startMs < s.endMs := fun s hs => hnd s (hperm.mem_iff.1 hs)
  have hinv : AccInv ((segs.mergeSort
      (fun a b => a.startMs ≤ b.startMs)).foldl mergeInto []) :=
    foldl_mergeInto_inv hsorted hndSorted ⟨by simp, by simp⟩ (by simp)
  obtain ⟨hndAcc, hchainAcc⟩ := hinv
  have hndOut : ∀ s ∈ sortAndMerge segs, s.startMs < s.endMs := by
    intro s hs
    exact hndAcc s (by simpa [sortAndMerge] using hs)
  have hchainOut : List.Chain'
      (fun a b => a.endMs < b.startMs) (sortAndMerge segs) := by
    unfold sortAndMerge
    rw [List.chain'_reverse]
    exact hchainAcc
  have hpair := chain_sep_pairwise (sortAndMerge segs) hndOut hchainOut
  refine ⟨?_, hpair, hndOut, totalCutOf_eq _⟩
  exact hpair.imp_of_mem (fun {a b} ha hb h => by
    have := hndOut a ha; omega)

/-- Witness for C2 on two overlapping raw segments (merged total 150,
naive input total 200). -/
theorem sortAndMerge_sound_witness :
    ((sortAndMerge [⟨0, 100, "x"⟩, ⟨50, 150, "y"⟩]).Pairwise
      (fun a b => a.endMs < b.startMs)) ∧
    totalCutOf (sortAndMerge [⟨0, 100, "x"⟩, ⟨50, 150, "y"⟩])
      = ((sortAndMerge [⟨0, 100, "x"⟩, ⟨50, 150, "y"⟩]).map segLen).sum :=
  ⟨(sortAndMerge_sound [⟨0, 100, "x"⟩, ⟨50, 150, "y"⟩] (by decide)).2.1,
   (sortAndMerge_sound [⟨0, 100, "x"⟩, ⟨50, 150, "y"⟩] (by decide)).2.2.2⟩

/-- **C9.** `generateCutsData` emits a removal segment for an
`autoRemove` pause exactly when its duration strictly exceeds 400 ms, and
that segment is the pause trimmed by 200 ms at each end; `autoRemove`
filler words are always emitted with their full interval. -/
theorem cuts_emission_spec (fillers : List FillerWord) (pauses : List Pause) :
    pauseSegments pauses
      = (pauses.filter
          (fun p => p.autoRemove && decide (400 < p.durationMs))).map
          (fun p => ⟨p.startMs + 200, p.endMs - 200,
            "pause: " ++ toString p.durationMs ++ "ms"⟩) ∧
    fillerSegments fillers
      = (fillers.filter (fun f => f.autoRemove)).map
          (fun f => ⟨f.startMs, f.endMs, "filler: \"" ++ f.word ++ "\""⟩) := by
  constructor
  · induction pauses with
    | nil => rfl
    | cons p rest ih =>
        simp only [pauseSegments, keepMs, List.filter_cons]
        by_cases har : p.autoRemove = true
        · by_cases hd : (400 : Int) < p.durationMs
          · simp [har, hd, ih, show (200 : Int) * 2 = 400 from rfl]
          · simp [har, hd, ih, show (200 : Int) * 2 = 400 from rfl, not_lt.1 hd]
        · simp [har, ih]
  · induction fillers with
    | nil => rfl
    | cons f rest ih =>
        simp only [fillerSegments, List.filter_cons]
        by_cases har : f.autoRemove = true
        · simp [har, ih]
        · simp [har, ih]

/-!
## Caption timing (`generateCaptionTiming`, 04-generate-timing) and the
`CaptionedVideo` emphasis-toggle recompute
-/

/-- A transcribed word with timestamps in seconds (`WhisperWord`). -/
structure WhisperWord where
  word : String
  start : ℚ
  «end» : ℚ
  deriving DecidableEq, Repr

/-- An emphasised word reference (`EmphasisWord`). -/
structure EmphasisWord where
  word : String
  index : Nat
  reason : String
  deriving DecidableEq, Repr

/-- The emphasis artifact (`EmphasisData`). -/
structure EmphasisData where
  inputFile : String
  emphasisWords : List EmphasisWord
  totalWords : Nat
  emphasisPercentage : ℚ
  deriving DecidableEq, Repr

/-- A caption word on the remapped timeline (`CaptionWord`). -/
structure CaptionWord where
  word : String
  startMs : Int
  endMs : Int
  startFrame : Int
  endFrame : Int
  isEmphasis : Bool
  originalIndex : Nat
  deriving DecidableEq, Repr

/-- A display page of caption words (`CaptionPage`). -/
structure CaptionPage where
  words : List CaptionWord
  startFrame : Int
  endFrame : Int
  deriving DecidableEq, Repr

/-- An on-screen caption anchor position (`CaptionPosition`). -/
structure CaptionPosition where
  x : ℚ
  y : ℚ
  deriving DecidableEq, Repr

/-- A position keyframe for caption animation (`PositionKeyframe`). -/
structure PositionKeyframe where
  frame : Int
  x : ℚ
  y : ℚ
  deriving DecidableEq, Repr

/-- The root caption artifact (`CaptionTimingData`). -/
structure CaptionTimingData where
  inputFile : String
  fps : Int
  totalFrames : Int
  durationMs : Int
  pages : List CaptionPage
  allWords : List CaptionWord
  position : CaptionPosition
  positionKeyframes : List PositionKeyframe
  deriving DecidableEq, Repr

/-- `msToFrame`: `Math.round((ms / 1000) * fps)`. -/
def msToFrame (ms : Int) (fps : Int) : Int :=
  jsRound ((ms : ℚ) / 1000 * fps)

/-- `CAPTION_STYLES.wordsPerPage`. -/
def wordsPerPage : Nat := 4

/-- The cut test applied to a word's original interval:
`originalStartMs < segment.endMs && originalEndMs > segment.startMs`
for some removed segment. -/
def isCutWord (cuts : List TimeSegment) (originalStartMs originalEndMs : Int) : Bool :=
  cuts.any (fun seg =>
    decide (originalStartMs < seg.endMs) && decide (originalEndMs > seg.startMs))

/-- The word loop of `generateCaptionTiming`: words overlapping a removed
segment are skipped, the rest are remapped; `i` is the loop index. -/
def buildCaptionWords (cuts : List TimeSegment) (emphasisIndices : List Nat)
    (fps : Int) : Nat → List WhisperWord → List CaptionWord
  | _, [] => []
  | i, w :: rest =>
    let originalStartMs := jsRound (w.start * 1000)
    let originalEndMs := jsRound (w.«end» * 1000)
    if isCutWord cuts originalStartMs originalEndMs then
      buildCaptionWords cuts emphasisIndices fps (i + 1) rest
    else
      { word := w.word
        startMs := adjustTimestamp originalStartMs cuts
        endMs := adjustTimestamp originalEndMs cuts
        startFrame := msToFrame (adjustTimestamp originalStartMs cuts) fps
        endFrame := msToFrame (adjustTimestamp originalEndMs cuts) fps
        isEmphasis := emphasisIndices.contains i
        originalIndex := i } :: buildCaptionWords cuts emphasisIndices fps (i + 1) rest

/-- The pagination loop of `generateCaptionTiming`: consecutive groups of
at most `k` caption words, each page's frame bounds taken from its first
and last word. -/
def buildPages (k : Nat) : List CaptionWord → List CaptionPage
  | [] => []
  | w :: rest =>
    let pageWords := w :: rest.take (k - 1)
    { words := pageWords
      startFrame := w.startFrame
      endFrame := (pageWords.getLast (List.cons_ne_nil _ _)).endFrame }
      :: buildPages k (rest.drop (k - 1))
termination_by l => l.length
decreasing_by simp; omega

/-- `generateCaptionTiming` from `04-generate-timing.ts`. -/
def generateCaptionTiming (words : List WhisperWord) (cutsData : CutsData)
    (emphasisData : EmphasisData) (fps : Int)
    (originalDurationMs : Int) : CaptionTimingData :=
  let emphasisIndices := emphasisData.emphasisWords.map (fun w => w.index)
  let captionWords :=
    buildCaptionWords cutsData.segmentsToRemove emphasisIndices fps 0 words
  let finalDurationMs := originalDurationMs - cutsData.totalCutDurationMs
  { inputFile := cutsData.inputFile
    fps := fps
    totalFrames := msToFrame finalDurationMs fps
    durationMs := finalDurationMs
    pages := buildPages wordsPerPage captionWords
    allWords := captionWords
    position := ⟨50, 80⟩
    positionKeyframes := [] }

/-- The `captionData` recompute in `CaptionedVideo`: emphasis toggles are
applied to `pages` (the source of truth) and `allWords` is re-derived by
flattening the updated pages. -/
def applyEmphasisToggles (toggles : List Nat) (base : CaptionTimingData)
    (localPosition : CaptionPosition)
    (keyframes : List PositionKeyframe) : CaptionTimingData :=
  let updatedPages := base.pages.map (fun page =>
    { page with words := page.words.map (fun word =>
        { word with isEmphasis :=
            if toggles.contains word.originalIndex then !word.isEmphasis
            else word.isEmphasis }) })
  { base with
    position := localPosition
    positionKeyframes := keyframes
    pages := updatedPages
    allWords := (updatedPages.map (fun page => page.words)).flatten }

theorem buildCaptionWords_mem {cuts : List TimeSegment}
    {emphasisIndices : List Nat} {fps : Int} :
    ∀ (i : Nat) (ws : List WhisperWord) (cw : CaptionWord),
      cw ∈ buildCaptionWords cuts emphasisIndices fps i ws →
      ∃ j, ∃ hj : j < ws.length, cw.originalIndex = i + j ∧
        isCutWord cuts (jsRound ((ws.get ⟨j, hj⟩).start * 1000))
          (jsRound ((ws.get ⟨j, hj⟩).«end» * 1000)) = false := by
  intro i ws
  induction ws generalizing i with
  | nil => intro cw h; simp [buildCaptionWords] at h
  | cons w rest ih =>
      intro cw h
      rw [buildCaptionWords] at h
      by_cases hcut : isCutWord cuts (jsRound (w.start * 1000))
          (jsRound (w.«end» * 1000)) = true
      · rw [if_pos hcut] at h
        obtain ⟨j, hj, hidx, hfree⟩ := ih (i + 1) cw h
        exact ⟨j + 1, by simpa using hj, by omega, by simpa using hfree⟩
      · rw [if_neg hcut] at h
        rcases List.mem_cons.1 h with heq | hmem
        · refine ⟨0, by simp, ?_, ?_⟩
          · subst heq; simp
          · simpa using Bool.eq_false_iff.2 hcut
        · obtain ⟨j, hj, hidx, hfree⟩ := ih (i + 1) cw hmem
          exact ⟨j + 1, by simpa using hj, by omega, by simpa using hfree⟩

/-- **C3.** Every `CaptionWord` emitted by `generateCaptionTiming` comes
from a source word whose original interval overlaps no removed segment
under the half-open test `segment.startMs < wordEndMs ∧
segment.endMs > wordStartMs`: overlapping words (fully or partially
inside a removed segment) are excluded entirely. -/
theorem generateCaptionTiming_drops_overlaps (words : List WhisperWord)
    (cutsData : CutsData) (emphasisData : EmphasisData)
    (fps originalDurationMs : Int) (cw : CaptionWord)
    (hmem : cw ∈ (generateCaptionTiming words cutsData emphasisData fps
      originalDurationMs).allWords) :
    ∃ hj : cw.originalIndex < words.length,
      ∀ seg ∈ cutsData.segmentsToRemove,
        ¬(seg.startMs < jsRound ((words.get ⟨cw.originalIndex, hj⟩).«end» * 1000) ∧
          seg.endMs > jsRound ((words.get ⟨cw.originalIndex, hj⟩).start * 1000)) := by
  obtain ⟨j, hj, hidx, hfree⟩ := buildCaptionWords_mem 0 words cw hmem
  have hj' : cw.originalIndex < words.length := by omega
  refine ⟨hj', ?_⟩
  intro seg hseg hcontra
  have hget : words.get ⟨cw.originalIndex, hj'⟩ = words.get ⟨j, hj⟩ := by
    congr 1
    exact Fin.ext (by simpa using hidx)
  rw [hget] at hcontra
  have : isCutWord cutsData.segmentsToRemove
      (jsRound ((words.get ⟨j, hj⟩).start * 1000))
      (jsRound ((words.get ⟨j, hj⟩).«end» * 1000)) = true := by
    simp only [isCutWord, List.any_eq_true]
    exact ⟨seg, hseg, by
      simp only [Bool.and_eq_true, decide_eq_true_eq]
      omega⟩
  rw [hfree] at this
  exact Bool.false_ne_true this

/-- Witness for C3: with one removed segment cutting the second word,
only the first word survives, and the theorem applies to it. -/
theorem generateCaptionTiming_drops_overlaps_witness :
    ∃ hj : (0 : Nat) < ([⟨"hi", 0, 1/2⟩, ⟨"um", 6/10, 1⟩] : List WhisperWord).length,
      ∀ seg ∈ (⟨"in.mp4", [⟨550, 1100, "p"⟩], 550⟩ : CutsData).segmentsToRemove,
        ¬(seg.startMs < jsRound ((([⟨"hi", 0, 1/2⟩, ⟨"um", 6/10, 1⟩] :
              List WhisperWord).get ⟨0, hj⟩).«end» * 1000) ∧
          seg.endMs > jsRound ((([⟨"hi", 0, 1/2⟩, ⟨"um", 6/10, 1⟩] :
              List WhisperWord).get ⟨0, hj⟩).start * 1000)) := by
  have happ := generateCaptionTiming_drops_overlaps
    [⟨"hi", 0, 1/2⟩, ⟨"um", 6/10, 1⟩]
    ⟨"in.mp4", [⟨550, 1100, "p"⟩], 550⟩
    ⟨"in.mp4", [], 1, 0⟩ 30 2000
    ⟨"hi", 0, 500, 0, 15, false, 0⟩
    (by
      norm_num [generateCaptionTiming, buildCaptionWords, isCutWord, jsRound,
        adjustTimestamp, adjStep, msToFrame, List.foldl, List.any,
        List.contains, List.elem])
  obtain ⟨hj, hfree⟩ := happ
  exact ⟨hj, hfree⟩

theorem buildPages_flatten (k : Nat) :
    ∀ l : List CaptionWord,
      ((buildPages k l).map CaptionPage.words).flatten = l
  | [] => by rw [buildPages]; rfl
  | w :: rest => by
      rw [buildPages]
      simp only [List.map_cons, List.flatten_cons]
      rw [buildPages_flatten k (rest.drop (k - 1))]
      simp [List.take_append_drop]
termination_by l => l.length
decreasing_by simp; omega

/-- **C4.** `allWords` always equals the flattening of `pages`: both in
every artifact produced by `generateCaptionTiming` and in the caption
data recomputed by `CaptionedVideo` after any set of emphasis toggles. -/
theorem allWords_eq_pages_flatten :
    (∀ (words : List WhisperWord) (cutsData : CutsData)
        (emphasisData : EmphasisData) (fps originalDurationMs : Int),
      (generateCaptionTiming words cutsData emphasisData fps
          originalDurationMs).allWords
        = (((generateCaptionTiming words cutsData emphasisData fps
            originalDurationMs).pages).map CaptionPage.words).flatten) ∧
    (∀ (toggles : List Nat) (base : CaptionTimingData)
        (localPosition : CaptionPosition)
        (keyframes : List PositionKeyframe),
      (applyEmphasisToggles toggles base localPosition keyframes).allWords
        = (((applyEmphasisToggles toggles base localPosition
            keyframes).pages).map CaptionPage.words).flatten) := by
  constructor
  · intro words cutsData emphasisData fps originalDurationMs
    exact (buildPages_flatten wordsPerPage _).symm
  · intro toggles base localPosition keyframes
    rfl

/-!
## Page lookup (`findCurrentPage`, Captions.tsx)
-/

/-- Whether a page's `[startFrame, endFrame]` interval contains `frame`. -/
def pageContains (frame : Int) (p : CaptionPage) : Bool :=
  decide (p.startFrame ≤ frame) && decide (frame ≤ p.endFrame)

/-- The second loop of `findCurrentPage`, which walks the pages backward
(here: forward over the reversed list): at the first page whose
`endFrame` is strictly below `frame`, return it when within the 5-frame
tolerance and otherwise stop with no page. -/
def findTolerant (frame : Int) : List CaptionPage → Option CaptionPage
  | [] => none
  | p :: rest =>
    if frame > p.endFrame then
      if frame ≤ p.endFrame + 5 then some p else none
    else findTolerant frame rest

/-- `findCurrentPage` from `Captions.tsx`. -/
def findCurrentPage (pages : List CaptionPage) (frame : Int) :
    Option CaptionPage :=
  match pages.find? (pageContains frame) with
  | some p => some p
  | none => findTolerant frame pages.reverse

/-- Pages laid out in order: each page's interval is well-formed and ends
strictly before the next page begins. -/
def PagesOrdered (pages : List CaptionPage) : Prop :=
  (∀ p ∈ pages, p.startFrame ≤ p.endFrame) ∧
  pages.Pairwise (fun p q => p.endFrame < q.startFrame)

theorem find?_eq_some_of_unique {α : Type} {p : α → Bool} {a : α} :
    ∀ {l : List α}, a ∈ l → p a = true →
      (∀ b ∈ l, p b = true → b = a) → l.find? p = some a
  | [], h, _, _ => absurd h (List.not_mem_nil a)
  | b :: l, h, hp, huniq => by
      rcases List.mem_cons.1 h with rfl | hmem
      · exact List.find?_cons_of_pos l hp
      · by_cases hb : p b = true
        · have : b = a := huniq b (by simp) hb
          subst this
          exact List.find?_cons_of_pos l hb
        · rw [List.find?_cons_of_neg l (by simpa using hb)]
          exact find?_eq_some_of_unique hmem hp
            (fun c hc hpc => huniq c (by simp [hc]) hpc)

theorem findTolerant_eq_some {frame : Int} :
    ∀ {l : List CaptionPage} {q : CaptionPage},
      findTolerant frame l = some q →
      ∃ l₁ l₂, l = l₁ ++ q :: l₂ ∧ (∀ r ∈ l₁, frame ≤ r.endFrame) ∧
        q.endFrame < frame ∧ frame ≤ q.endFrame + 5
  | [], q, h => by simp [findTolerant] at h
  | p :: l, q, h => by
      rw [findTolerant] at h
      by_cases hgt : frame > p.endFrame
      · rw [if_pos hgt] at h
        by_cases htol : frame ≤ p.endFrame + 5
        · rw [if_pos htol] at h
          cases h
          exact ⟨[], l, rfl, by simp, by omega, htol⟩
        · rw [if_neg htol] at h; cases h
      · rw [if_neg hgt] at h
        obtain ⟨l₁, l₂, hsplit, hskip, hq1, hq2⟩ := findTolerant_eq_some h
        refine ⟨p :: l₁, l₂, by simp [hsplit], ?_, hq1, hq2⟩
        intro r hr
        rcases List.mem_cons.1 hr with rfl | hr
        · omega
        · exact hskip r hr

theorem findTolerant_hits {frame : Int} {q : CaptionPage} :
    ∀ (l₁ l₂ : List CaptionPage), (∀ r ∈ l₁, ¬frame > r.endFrame) →
      q.endFrame < frame → frame ≤ q.endFrame + 5 →
      findTolerant frame (l₁ ++ q :: l₂) = some q
  | [], l₂, _, hq1, hq2 => by
      rw [List.nil_append, findTolerant, if_pos (by omega), if_pos hq2]
  | p :: l₁, l₂, hskip, hq1, hq2 => by
      rw [List.cons_append, findTolerant,
        if_neg (hskip p (by simp))]
      exact findTolerant_hits l₁ l₂ (fun r hr => hskip r (by simp [hr])) hq1 hq2

/-- **C5.** For pages ordered by frame range, `findCurrentPage` returns
the page whose `[startFrame, endFrame]` interval contains the frame; if
no page contains it but the frame lies strictly after some page's
`endFrame` by at most 5 frames (and before any later page begins), that
page is returned; otherwise no page is returned. -/
theorem findCurrentPage_spec (pages : List CaptionPage) (frame : Int)
    (hord : PagesOrdered pages) :
    (∀ p ∈ pages, pageContains frame p = true →
      findCurrentPage pages frame = some p) ∧
    ((∀ p ∈ pages, pageContains frame p = false) →
      ∀ q ∈ pages, q.endFrame < frame → frame ≤ q.endFrame + 5 →
        (∀ r ∈ pages, q.endFrame < r.startFrame → frame < r.startFrame) →
        findCurrentPage pages frame = some q) ∧
    ((∀ p ∈ pages, pageContains frame p = false) →
      (∀ q ∈ pages, ¬(q.endFrame < frame ∧ frame ≤ q.endFrame + 5 ∧
        ∀ r ∈ pages, q.endFrame < r.startFrame → frame < r.startFrame)) →
      findCurrentPage pages frame = none) := by
  obtain ⟨hwf, hpair⟩ := hord
  have hdisj : ∀ a ∈ pages, ∀ b ∈ pages, a ≠ b →
      a.endFrame < b.startFrame ∨ b.endFrame < a.startFrame := by
    have hsym : Symmetric (fun a b : CaptionPage =>
        a.endFrame < b.startFrame ∨ b.endFrame < a.startFrame) := by
      intro a b h; tauto
    intro a ha b hb hab
    exact (hpair.imp (fun h => Or.inl h)).forall hsym ha hb hab
  refine ⟨?_, ?_, ?_⟩
  · -- a page containing the frame is returned
    intro p hp hcont
    have huniq : ∀ b ∈ pages, pageContains frame b = true → b = p := by
      intro b hb hbc
      by_contra hne
      simp only [pageContains, Bool.and_eq_true, decide_eq_true_eq] at hcont hbc
      rcases hdisj b hb p hp hne with h | h <;> omega
    unfold findCurrentPage
    rw [find?_eq_some_of_unique hp hcont huniq]
  · -- the within-tolerance page after which the frame falls is returned
    intro hnone q hq hq1 hq2 hlater
    have hfind : pages.find? (pageContains frame) = none :=
      List.find?_eq_none.2 (fun x hx => by simp [hnone x hx])
    obtain ⟨A, B, rfl⟩ := List.append_of_mem hq
    unfold findCurrentPage
    rw [hfind]
    have hrev : (A ++ q :: B).reverse = B.reverse ++ q :: A.reverse := by
      simp
    rw [hrev]
    refine findTolerant_hits B.reverse A.reverse ?_ hq1 hq2
    intro r hr
    have hrB : r ∈ B := by simpa using hr
    have hqr : q.endFrame < r.startFrame := by
      have := (List.pairwise_append.1 hpair).2.1
      exact (List.pairwise_cons.1 this).1 r hrB
    have := hlater r (by simp [hrB]) hqr
    have := hwf r (by simp [hrB])
    omega
  · -- otherwise no page is returned
    intro hnone hnotol
    have hfind : pages.find? (pageContains frame) = none :=
      List.find?_eq_none.2 (fun x hx => by simp [hnone x hx])
    unfold findCurrentPage
    rw [hfind]
    cases hres : findTolerant frame pages.reverse with
    | none => rfl
    | some q =>
        exfalso
        obtain ⟨l₁, l₂, hsplit, hskip, hq1, hq2⟩ := findTolerant_eq_some hres
        have hpages : pages = l₂.reverse ++ q :: l₁.reverse := by
          have := congrArg List.reverse hsplit
          simpa using this
        have hqmem : q ∈ pages := by rw [hpages]; simp
        refine hnotol q hqmem ⟨hq1, hq2, ?_⟩
        intro r hr hqr
        rw [hpages] at hr
        rcases List.mem_append.1 hr with hr2 | hr1
        · -- pages positioned before `q` end before `q` begins
          exfalso
          have hpair' := hpair
          rw [hpages] at hpair'
          have hcross := (List.pairwise_append.1 hpair').2.2 r hr2 q (by simp)
          have hwq := hwf q hqmem
          have hwr := hwf r (by rw [hpages]; exact List.mem_append.2 (Or.inl hr2))
          omega
        · rcases List.mem_cons.1 hr1 with rfl | hr1
          · have := hwf r hqmem
            omega
          · -- pages positioned after `q` were scanned and skipped
            have hrl₁ : r ∈ l₁ := by simpa using hr1
            have hle := hskip r hrl₁
            have hrc := hnone r (by
              rw [hpages]
              exact List.mem_append.2 (Or.inr (List.mem_cons.2 (Or.inr hr1))))
            simp only [pageContains, Bool.and_eq_false_iff,
              decide_eq_false_iff_not] at hrc
            rcases hrc with h | h <;> omega

/-- Witness for C5: two pages `[0,10]` and `[12,20]`; frame 23 is 3
frames after the last page's end and returns it, frame 30 is 10 frames
after and returns nothing, frame 5 is contained in the first page. -/
theorem findCurrentPage_spec_witness :
    findCurrentPage [⟨[], 0, 10⟩, ⟨[], 12, 20⟩] 5 = some ⟨[], 0, 10⟩ ∧
    findCurrentPage [⟨[], 0, 10⟩, ⟨[], 12, 20⟩] 23 = some ⟨[], 12, 20⟩ ∧
    findCurrentPage [⟨[], 0, 10⟩, ⟨[], 12, 20⟩] 30 = none := by
  have hord : PagesOrdered [⟨[], 0, 10⟩, ⟨[], 12, 20⟩] := by
    constructor
    · intro p hp
      rcases List.mem_cons.1 hp with rfl | hp
      · decide
      · rcases List.mem_cons.1 hp with rfl | hp
        · decide
        · simp at hp
    · decide
  refine ⟨?_, ?_, ?_⟩
  · exact (findCurrentPage_spec _ 5 hord).1 ⟨[], 0, 10⟩ (by decide) (by decide)
  · exact (findCurrentPage_spec _ 23 hord).2.1 (by decide) ⟨[], 12, 20⟩
      (by decide) (by decide) (by decide) (by decide)
  · exact (findCurrentPage_spec _ 30 hord).2.2 (by decide) (by decide)

/-!
## Position keyframe interpolation (`getInterpolatedPosition`, Captions.tsx)
-/

/-- `DEFAULT_POSITION` from `Captions.tsx`. -/
def DEFAULT_POSITION : CaptionPosition := ⟨50, 80⟩

/-- Remotion's `interpolate` over a two-point input range with clamped
extrapolation on both sides. -/
def remInterp (frame a b : Int) (oa ob : ℚ) : ℚ :=
  if frame ≤ a then oa
  else if b ≤ frame then ob
  else oa + ((frame : ℚ) - a) / ((b : ℚ) - a) * (ob - oa)

/-- The bracketing-pair scan of `getInterpolatedPosition`: walk
consecutive pairs of the sorted keyframes and interpolate within the
first pair that brackets `frame`. -/
def interpLoop (frame : Int) (staticPosition : Option CaptionPosition) :
    List PositionKeyframe → CaptionPosition
  | a :: b :: rest =>
    if a.frame ≤ frame ∧ frame ≤ b.frame then
      ⟨remInterp frame a.frame b.frame a.x b.x,
       remInterp frame a.frame b.frame a.y b.y⟩
    else interpLoop frame staticPosition (b :: rest)
  | _ => staticPosition.getD DEFAULT_POSITION

/-- The body of `getInterpolatedPosition` after sorting: clamp before the
first and after the last keyframe, otherwise scan for a bracketing pair. -/
def interpSorted (frame : Int) (staticPosition : Option CaptionPosition) :
    List PositionKeyframe → CaptionPosition
  | [] => staticPosition.getD DEFAULT_POSITION
  | first :: restS =>
    if frame ≤ first.frame then ⟨first.x, first.y⟩
    else if ((first :: restS).getLast (List.cons_ne_nil _ _)).frame ≤ frame then
      ⟨((first :: restS).getLast (List.cons_ne_nil _ _)).x,
       ((first :: restS).getLast (List.cons_ne_nil _ _)).y⟩
    else interpLoop frame staticPosition (first :: restS)

/-- `getInterpolatedPosition` from `Captions.tsx`. -/
def getInterpolatedPosition (frame : Int) (keyframes : List PositionKeyframe)
    (staticPosition : Option CaptionPosition) : CaptionPosition :=
  if keyframes.isEmpty then staticPosition.getD DEFAULT_POSITION
  else interpSorted frame staticPosition
    (keyframes.mergeSort (fun a b => a.frame ≤ b.frame))

theorem pairwise_le_head {l : List PositionKeyframe} {first x : PositionKeyframe}
    (h : (first :: l).Pairwise (fun a b => a.frame ≤ b.frame))
    (hx : x ∈ first :: l) : first.frame ≤ x.frame := by
  rcases List.mem_cons.1 hx with rfl | hx
  · exact le_refl _
  · exact (List.pairwise_cons.1 h).1 x hx

theorem pairwise_le_getLast :
    ∀ (l : List PositionKeyframe) (h : l ≠ []),
      l.Pairwise (fun a b => a.frame ≤ b.frame) →
      ∀ x ∈ l, x.frame ≤ (l.getLast h).frame
  | [a], _, _, x, hx => by
      rcases List.mem_cons.1 hx with rfl | hx
      · simp [List.getLast]
      · simp at hx
  | a :: b :: t, _, hp, x, hx => by
      rw [List.getLast_cons (List.cons_ne_nil _ _)]
      rcases List.mem_cons.1 hx with rfl | hx
      · have hmem := List.getLast_mem (List.cons_ne_nil b t)
        exact (List.pairwise_cons.1 hp).1 _ hmem
      · exact pairwise_le_getLast (b :: t) (List.cons_ne_nil _ _)
          (List.pairwise_cons.1 hp).2 x hx

theorem interpLoop_spec {f : Int} {sp : Option CaptionPosition}
    {a b : PositionKeyframe} :
    ∀ s : List PositionKeyframe,
      s.Pairwise (fun x y => x.frame ≤ y.frame) →
      s.Pairwise (fun x y => x.frame ≠ y.frame) →
      a ∈ s → b ∈ s →
      (∀ j ∈ s, j.frame ≤ a.frame ∨ b.frame ≤ j.frame) →
      a.frame < f → f < b.frame →
      interpLoop f sp s
        = ⟨a.x + ((f : ℚ) - a.frame) / ((b.frame : ℚ) - a.frame) * (b.x - a.x),
           a.y + ((f : ℚ) - a.frame) / ((b.frame : ℚ) - a.frame) * (b.y - a.y)⟩
  | [], _, _, ha, _, _, _, _ => absurd ha (List.not_mem_nil a)
  | [p], _, _, ha, hb, _, haf, hfb => by
      rcases List.mem_cons.1 ha with rfl | ha
      · rcases List.mem_cons.1 hb with rfl | hb
        · omega
        · simp at hb
      · simp at ha
  | p :: q :: rest, hle, hdist, ha, hb, hgap, haf, hfb => by
      have hsym : Symmetric (fun x y : PositionKeyframe => x.frame ≠ y.frame) :=
        fun x y h => h.symm
      have hpq : p.frame ≤ q.frame := (List.pairwise_cons.1 hle).1 q (by simp)
      have hpqne : p.frame ≠ q.frame := (List.pairwise_cons.1 hdist).1 q (by simp)
      by_cases hcond : p.frame ≤ f ∧ f ≤ q.frame
      · -- the first pair brackets the frame, so it must be (a, b)
        have hpa : p = a := by
          by_contra hne
          have haq : a ∈ q :: rest := by
            rcases List.mem_cons.1 ha with rfl | h
            · exact absurd rfl hne
            · exact h
          have hqa : q.frame ≤ a.frame :=
            pairwise_le_head (List.pairwise_cons.1 hle).2 haq
          omega
        subst hpa
        have hqb : q = b := by
          have hbq : b ∈ q :: rest := by
            rcases List.mem_cons.1 hb with rfl | h
            · omega
            · exact h
          have h1 : q.frame ≤ b.frame :=
            pairwise_le_head (List.pairwise_cons.1 hle).2 hbq
          have h2 : b.frame ≤ q.frame := by
            rcases hgap q (by simp) with h | h
            · omega
            · exact h
          by_contra hne
          have hqbne : q.frame ≠ b.frame :=
            hdist.forall hsym (by simp) hb hne
          omega
        subst hqb
        rw [interpLoop, if_pos hcond]
        rw [remInterp, if_neg (by omega), if_neg (by omega),
          remInterp, if_neg (by omega), if_neg (by omega)]
      · -- the first pair does not bracket the frame: a and b sit further on
        have ha' : a ∈ q :: rest := by
          rcases List.mem_cons.1 ha with rfl | h
          · exfalso
            have hqf : q.frame < f := by omega
            rcases hgap q (by simp) with h | h <;> omega
          · exact h
        have hb' : b ∈ q :: rest := by
          rcases List.mem_cons.1 hb with rfl | h
          · exfalso
            have := pairwise_le_head hle ha
            omega
          · exact h
        rw [interpLoop, if_neg hcond]
        exact interpLoop_spec (q :: rest) (List.pairwise_cons.1 hle).2
          (List.pairwise_cons.1 hdist).2 ha' hb'
          (fun j hj => hgap j (by simp [hj])) haf hfb

/-- **C6.** For every non-empty keyframe list with distinct frames, in
any input order, `getInterpolatedPosition` returns the smallest
keyframe's position at or before its frame, the largest keyframe's
position at or after its frame, and otherwise linearly interpolates `x`
and `y` independently between the bracketing pair. -/
theorem getInterpolatedPosition_spec (kfs : List PositionKeyframe)
    (sp : Option CaptionPosition) (hne : kfs ≠ [])
    (hdist : kfs.Pairwise (fun x y => x.frame ≠ y.frame)) :
    (∀ k ∈ kfs, (∀ j ∈ kfs, k.frame ≤ j.frame) →
      ∀ f : Int, f ≤ k.frame →
        getInterpolatedPosition f kfs sp = ⟨k.x, k.y⟩) ∧
    (∀ k ∈ kfs, (∀ j ∈ kfs, j.frame ≤ k.frame) →
      ∀ f : Int, k.frame ≤ f →
        getInterpolatedPosition f kfs sp = ⟨k.x, k.y⟩) ∧
    (∀ a ∈ kfs, ∀ b ∈ kfs, ∀ f : Int,
      a.frame < f → f < b.frame →
      (∀ j ∈ kfs, j.frame ≤ a.frame ∨ b.frame ≤ j.frame) →
      getInterpolatedPosition f kfs sp
        = ⟨a.x + ((f : ℚ) - a.frame) / ((b.frame : ℚ) - a.frame) * (b.x - a.x),
           a.y + ((f : ℚ) - a.frame) / ((b.frame : ℚ) - a.frame) * (b.y - a.y)⟩) := by
  have hsym : Symmetric (fun x y : PositionKeyframe => x.frame ≠ y.frame) :=
    fun x y h => h.symm
  have hperm := List.mergeSort_perm kfs
    (fun a b => decide (a.frame ≤ b.frame))
  have hsortedB := @List.sorted_mergeSort PositionKeyframe
    (fun a b => decide (a.frame ≤ b.frame))
    (fun a b c hab hbc => by simp only [decide_eq_true_eq] at *; omega)
    (fun a b => by simp only [Bool.or_eq_true, decide_eq_true_eq]; omega)
    kfs
  have hsorted : (kfs.mergeSort (fun a b => a.frame ≤ b.frame)).Pairwise
      (fun x y => x.frame ≤ y.frame) :=
    hsortedB.imp (fun h => by simpa using h)
  have hdistS : (kfs.mergeSort (fun a b => a.frame ≤ b.frame)).Pairwise
      (fun x y => x.frame ≠ y.frame) :=
    (List.Perm.pairwise_iff (fun {x y} h => h.symm) hperm).2 hdist
  have hmemS : ∀ x, x ∈ kfs.mergeSort (fun a b => a.frame ≤ b.frame) ↔ x ∈ kfs :=
    fun x => hperm.mem_iff
  have hsne : kfs.mergeSort (fun a b => a.frame ≤ b.frame) ≠ [] := by
    intro h
    have := hperm.length_eq
    rw [h] at this
    simp at this
    exact hne (List.length_eq_zero.1 this.symm)
  have hempty : kfs.isEmpty = false := by
    cases kfs with
    | nil => exact absurd rfl hne
    | cons a l => rfl
  obtain ⟨first, restS, hEq⟩ : ∃ f r,
      kfs.mergeSort (fun a b => a.frame ≤ b.frame) = f :: r := by
    cases h : kfs.mergeSort (fun a b => a.frame ≤ b.frame) with
    | nil => exact absurd h hsne
    | cons f r => exact ⟨f, r, rfl⟩
  rw [hEq] at hsorted hdistS
  have hlast_mem :
      ((first :: restS).getLast (List.cons_ne_nil _ _)) ∈ first :: restS :=
    List.getLast_mem _
  refine ⟨?_, ?_, ?_⟩
  · -- clamp before the smallest keyframe
    intro k hk hmin f hf
    have hkS : k ∈ first :: restS := by rw [← hEq, hmemS]; exact hk
    have h1 : first.frame ≤ k.frame := pairwise_le_head hsorted hkS
    have h2 : k.frame ≤ first.frame := by
      apply hmin
      rw [← hmemS, hEq]
      simp
    have hfk : first = k := by
      by_contra hnefk
      have hne3 : first.frame ≠ k.frame := hdistS.forall hsym (by simp) hkS hnefk
      exact hne3 (by omega)
    unfold getInterpolatedPosition
    rw [if_neg (by simp [hempty]), hEq]
    rw [interpSorted, if_pos (by omega)]
    rw [hfk]
  · -- clamp after the largest keyframe
    intro k hk hmax f hf
    have hkS : k ∈ first :: restS := by rw [← hEq, hmemS]; exact hk
    have h1 : k.frame ≤
        ((first :: restS).getLast (List.cons_ne_nil _ _)).frame :=
      pairwise_le_getLast _ _ hsorted k hkS
    have h2 : ((first :: restS).getLast (List.cons_ne_nil _ _)).frame ≤
        k.frame := by
      apply hmax
      rw [← hmemS, hEq]
      exact hlast_mem
    have hlk : (first :: restS).getLast (List.cons_ne_nil _ _) = k := by
      by_contra hnelk
      have hne3 : ((first :: restS).getLast (List.cons_ne_nil _ _)).frame ≠
          k.frame := hdistS.forall hsym hlast_mem hkS hnelk
      exact hne3 (by omega)
    unfold getInterpolatedPosition
    rw [if_neg (by simp [hempty]), hEq]
    by_cases hfirst : f ≤ first.frame
    · have h3 : first.frame ≤
          ((first :: restS).getLast (List.cons_ne_nil _ _)).frame :=
        pairwise_le_getLast _ _ hsorted first (by simp)
      have hfl : first = (first :: restS).getLast (List.cons_ne_nil _ _) := by
        by_contra hne2
        have hne3 : first.frame ≠
            ((first :: restS).getLast (List.cons_ne_nil _ _)).frame :=
          hdistS.forall hsym (by simp) hlast_mem hne2
        exact hne3 (by omega)
      rw [interpSorted, if_pos hfirst, hfl, hlk]
    · rw [interpSorted, if_neg hfirst, if_pos (by omega), hlk]
  · -- linear interpolation between the bracketing pair
    intro a ha b hb f haf hfb hgap
    have haS : a ∈ first :: restS := by rw [← hEq, hmemS]; exact ha
    have hbS : b ∈ first :: restS := by rw [← hEq, hmemS]; exact hb
    have h1 : first.frame ≤ a.frame := pairwise_le_head hsorted haS
    have h2 : b.frame ≤
        ((first :: restS).getLast (List.cons_ne_nil _ _)).frame :=
      pairwise_le_getLast _ _ hsorted b hbS
    unfold getInterpolatedPosition
    rw [if_neg (by simp [hempty]), hEq]
    rw [interpSorted, if_neg (by omega), if_neg (by omega)]
    exact interpLoop_spec (first :: restS) hsorted hdistS haS hbS
      (fun j hj => hgap j (by rw [← hmemS, hEq]; exact hj)) haf hfb

/-- Witness for C6: keyframes `[{0,50,50},{100,50,80}]` give `{50,65}` at
frame 50, `{50,50}` at frame −10, and `{50,80}` at frame 500. -/
theorem getInterpolatedPosition_spec_witness :
    getInterpolatedPosition 50 [⟨0, 50, 50⟩, ⟨100, 50, 80⟩] none = ⟨50, 65⟩ ∧
    getInterpolatedPosition (-10) [⟨0, 50, 50⟩, ⟨100, 50, 80⟩] none = ⟨50, 50⟩ ∧
    getInterpolatedPosition 500 [⟨0, 50, 50⟩, ⟨100, 50, 80⟩] none = ⟨50, 80⟩ := by
  have hspec := getInterpolatedPosition_spec [⟨0, 50, 50⟩, ⟨100, 50, 80⟩]
    none (by simp) (by
      refine List.pairwise_cons.2 ⟨?_, List.pairwise_singleton _ _⟩
      intro j hj
      rcases List.mem_cons.1 hj with rfl | hj
      · decide
      · simp at hj)
  refine ⟨?_, ?_, ?_⟩
  · have h := hspec.2.2 ⟨0, 50, 50⟩ (by simp) ⟨100, 50, 80⟩ (by simp)
      50 (by decide) (by decide)
      (by
        intro j hj
        rcases List.mem_cons.1 hj with rfl | hj
        · left; decide
        · rcases List.mem_cons.1 hj with rfl | hj
          · right; decide
          · simp at hj)
    rw [h]
    norm_num
  · have h := hspec.1 ⟨0, 50, 50⟩ (by simp)
      (by
        intro j hj
        rcases List.mem_cons.1 hj with rfl | hj
        · decide
        · rcases List.mem_cons.1 hj with rfl | hj
          · decide
          · simp at hj)
      (-10) (by decide)
    exact h
  · have h := hspec.2.1 ⟨100, 50, 80⟩ (by simp [List.mem_cons])
      (by
        intro j hj
        rcases List.mem_cons.1 hj with rfl | hj
        · decide
        · rcases List.mem_cons.1 hj with rfl | hj
          · decide
          · simp at hj)
      500 (by decide)
    exact h

/-!
## Video cutting (`buildFFmpegFilter` and the 05-cut-video main flow)

Second values in the FFmpeg filter are exact rationals here; their string
rendering approximates JavaScript number formatting (the claims under
verification do not depend on the rendered digits).
-/

/-- The loop of `buildFFmpegFilter` that accumulates the spans to keep
(in seconds) while walking the removal segments; returns the keep spans
and the final `currentPos`. -/
def keepLoop : List TimeSegment → Int → List (ℚ × ℚ) × Int
  | [], pos => ([], pos)
  | cut :: rest, pos =>
    let head : List (ℚ × ℚ) :=
      if pos < cut.startMs then [((pos : ℚ) / 1000, (cut.startMs : ℚ) / 1000)]
      else []
    let tail := keepLoop rest cut.endMs
    (head ++ tail.1, tail.2)

/-- The spans of the original timeline kept by `buildFFmpegFilter`. -/
def segmentsToKeep (cuts : List TimeSegment) (durationMs : Int) :
    List (ℚ × ℚ) :=
  let r := keepLoop cuts 0
  if r.2 < durationMs then r.1 ++ [((r.2 : ℚ) / 1000, (durationMs : ℚ) / 1000)]
  else r.1

/-- The `filter_complex` text for one kept span. -/
def trimFilterParts (i : Nat) (seg : ℚ × ℚ) : List String :=
  ["[0:v]trim=start=" ++ toString seg.1 ++ ":end=" ++ toString seg.2 ++
      ",setpts=PTS-STARTPTS[v" ++ toString i ++ "]",
   "[0:a]atrim=start=" ++ toString seg.1 ++ ":end=" ++ toString seg.2 ++
      ",asetpts=PTS-STARTPTS[a" ++ toString i ++ "]"]

/-- The full `filter_complex` string assembled from the kept spans. -/
def filterString (keep : List (ℚ × ℚ)) : String :=
  let parts := (keep.enum.map (fun p => trimFilterParts p.1 p.2)).flatten
  let concatInputs := keep.enum.map
    (fun p => "[v" ++ toString p.1 ++ "][a" ++ toString p.1 ++ "]")
  String.intercalate ";"
    (parts ++ [String.join concatInputs ++ "concat=n=" ++
      toString keep.length ++ ":v=1:a=1[outv][outa]"])

/-- `buildFFmpegFilter` from `05-cut-video.ts`: empty cut list yields an
empty filter with zero segments; a cut plan leaving nothing to keep
throws. -/
def buildFFmpegFilter (cuts : CutsData) (durationMs : Int) :
    Except String (String × Nat) :=
  if cuts.segmentsToRemove.isEmpty then .ok ("", 0)
  else
    let keep := segmentsToKeep cuts.segmentsToRemove durationMs
    if keep.isEmpty then .error "No segments to keep after cuts!"
    else .ok (filterString keep, keep.length)

/-- The effect of the 05-cut-video main flow on the transcoder. -/
inductive CutAction where
  | copy
  | transcode (filter : String) (segmentCount : Nat)
  deriving DecidableEq, Repr

/-- The main flow of `05-cut-video.ts`: with no segments to remove the
original file is copied; otherwise the FFmpeg filter is built (its error
propagating) and the transcoder invoked with it. -/
def cutVideoMain (cuts : CutsData) (originalDurationMs : Int) :
    Except String CutAction :=
  if cuts.segmentsToRemove.isEmpty then .ok .copy
  else
    match buildFFmpegFilter cuts originalDurationMs with
    | .error e => .error e
    | .ok (filter, segmentCount) => .ok (.transcode filter segmentCount)

/-- A removal list that covers `[0, durationMs]` in the order given:
the first segment starts at or before 0, each next segment starts at or
before the previous one ends, and the last ends at or past the duration. -/
def CoversDuration (segs : List TimeSegment) (durationMs : Int) : Prop :=
  (∀ first ∈ segs.head?, first.startMs ≤ 0) ∧
  List.Chain' (fun a b => b.startMs ≤ a.endMs) segs ∧
  (∀ last ∈ segs.getLast?, durationMs ≤ last.endMs)

theorem keepLoop_covered :
    ∀ (segs : List TimeSegment) (pos : Int),
      (∀ first ∈ segs.head?, first.startMs ≤ pos) →
      List.Chain' (fun a b => b.startMs ≤ a.endMs) segs →
      ∀ (hne : segs ≠ []),
      (keepLoop segs pos).1 = [] ∧
        (keepLoop segs pos).2 = (segs.getLast hne).endMs
  | [], _, _, _, h => absurd rfl h
  | [cut], pos, hhead, _, _ => by
      have : cut.startMs ≤ pos := hhead cut rfl
      simp [keepLoop, if_neg (by omega : ¬pos < cut.startMs), List.getLast]
  | cut :: next :: rest, pos, hhead, hchain, _ => by
      have h1 : cut.startMs ≤ pos := hhead cut rfl
      have h2 : next.startMs ≤ cut.endMs := (List.chain'_cons.1 hchain).1
      have ih := keepLoop_covered (next :: rest) cut.endMs
        (fun f hf => by
          simp only [List.head?_cons, Option.mem_def, Option.some.injEq] at hf
          subst hf
          omega)
        (List.chain'_cons.1 hchain).2 (List.cons_ne_nil _ _)
      refine ⟨?_, ?_⟩
      · have hfst : (keepLoop (cut :: next :: rest) pos).1
            = (if pos < cut.startMs
                then [((pos : ℚ) / 1000, ((cut.startMs : ℚ)) / 1000)]
                else []) ++ (keepLoop (next :: rest) cut.endMs).1 := rfl
        rw [hfst, if_neg (by omega), List.nil_append, ih.1]
      · have hsnd : (keepLoop (cut :: next :: rest) pos).2
            = (keepLoop (next :: rest) cut.endMs).2 := rfl
        rw [hsnd, ih.2, List.getLast_cons (List.cons_ne_nil _ _)]

/-- **C8.** A non-empty cut plan covering the whole original duration
makes `cutVideoMain` fail with "No segments to keep after cuts!" (raised
by `buildFFmpegFilter`, before the transcoder is ever invoked); and in
general the transcoder is only ever invoked with at least one kept
segment. -/
theorem cutVideo_halts_when_nothing_kept :
    (∀ (cuts : CutsData) (durationMs : Int),
      cuts.segmentsToRemove ≠ [] →
      CoversDuration cuts.segmentsToRemove durationMs →
      cutVideoMain cuts durationMs = .error "No segments to keep after cuts!") ∧
    (∀ (cuts : CutsData) (durationMs : Int) (filter : String)
        (segmentCount : Nat),
      cutVideoMain cuts durationMs = .ok (.transcode filter segmentCount) →
      1 ≤ segmentCount) := by
  constructor
  · intro cuts durationMs hne hcov
    obtain ⟨hhead, hchain, hlast⟩ := hcov
    have hloop := keepLoop_covered cuts.segmentsToRemove 0
      (fun f hf => hhead f hf) hchain hne
    have hfin : durationMs ≤ (keepLoop cuts.segmentsToRemove 0).2 := by
      rw [hloop.2]
      exact hlast _ (List.getLast?_eq_getLast _ hne ▸ rfl)
    have hkeep : segmentsToKeep cuts.segmentsToRemove durationMs = [] := by
      unfold segmentsToKeep
      rw [if_neg (by omega), hloop.1]
    have hnotEmpty : cuts.segmentsToRemove.isEmpty = false := by
      cases h : cuts.segmentsToRemove with
      | nil => exact absurd h hne
      | cons a l => rfl
    unfold cutVideoMain buildFFmpegFilter
    rw [if_neg (by simp [hnotEmpty]), if_neg (by simp [hnotEmpty])]
    simp [hkeep]
  · intro cuts durationMs filter segmentCount h
    unfold cutVideoMain at h
    by_cases hne : cuts.segmentsToRemove.isEmpty
    · rw [if_pos hne] at h
      cases h
    · rw [if_neg hne] at h
      unfold buildFFmpegFilter at h
      rw [if_neg hne] at h
      by_cases hk : (segmentsToKeep cuts.segmentsToRemove durationMs).isEmpty
      · rw [if_pos hk] at h
        cases h
      · rw [if_neg hk] at h
        simp only [Except.ok.injEq, CutAction.transcode.injEq] at h
        have := h.2
        cases hkl : segmentsToKeep cuts.segmentsToRemove durationMs with
        | nil => rw [hkl] at hk; simp at hk
        | cons a l =>
            rw [hkl] at this
            simp at this
            omega

/-- Witness for C8: a single cut `[0, 5000]` covering a 5000 ms recording
fails; a cut `[1000, 2000]` in the middle transcodes two kept segments. -/
theorem cutVideo_halts_when_nothing_kept_witness :
    cutVideoMain ⟨"in.mp4", [⟨0, 5000, "all"⟩], 5000⟩ 5000
      = .error "No segments to keep after cuts!" ∧
    (cutVideoMain ⟨"in.mp4", [⟨1000, 2000, "mid"⟩], 1000⟩ 5000
        = .ok (.transcode
            (filterString (segmentsToKeep [⟨1000, 2000, "mid"⟩] 5000)) 2) →
      1 ≤ 2) := by
  constructor
  · exact cutVideo_halts_when_nothing_kept.1
      ⟨"in.mp4", [⟨0, 5000, "all"⟩], 5000⟩ 5000 (by simp)
      ⟨by simp, by simp, by simp⟩
  · intro h
    exact cutVideo_halts_when_nothing_kept.2
      ⟨"in.mp4", [⟨1000, 2000, "mid"⟩], 1000⟩ 5000 _ 2 h

/-!
## Project lifecycle manager (project-server)

Directories are modelled by the lists of their entry names; the archive
is an association list from project name to the archived copies of the
four working stores.  Display dates and on-disk sizes (filesystem
metadata) are not modelled.
-/

/-- The four working stores of a project. -/
structure ProjectStores where
  input : List String
  data : List String
  output : List String
  temp : List String
  deriving DecidableEq, Repr

/-- The state the project server's lifecycle operations act on. -/
structure ServerState where
  archive : List (String × ProjectStores)
  current : Option String
  stores : ProjectStores
  deriving DecidableEq, Repr

/-- `copyDirSync` into a possibly existing directory: entries of `src`
overwrite or join the entries of `dest`. -/
def listUnion (dest src : List String) : List String :=
  dest ++ src.filter (fun e => !(dest.contains e))

/-- Union of two archived store bundles (per-directory `copyDirSync`). -/
def storesUnion (dest src : ProjectStores) : ProjectStores :=
  ⟨listUnion dest.input src.input, listUnion dest.data src.data,
   listUnion dest.output src.output, listUnion dest.temp src.temp⟩

/-- Store the working stores in the archive under `name` (merging into an
existing entry of the same name, as `mkdirSync` + `copyDirSync` do). -/
def archiveInsert : List (String × ProjectStores) → String → ProjectStores →
    List (String × ProjectStores)
  | [], name, st => [(name, st)]
  | (n, old) :: rest, name, st =>
    if n = name then (n, storesUnion old st) :: rest
    else (n, old) :: archiveInsert rest name st

/-- Empty working stores. -/
def emptyStores : ProjectStores := ⟨[], [], [], []⟩

/-- `hasCurrentProject`: the input or data store has content. -/
def hasCurrentProject (s : ServerState) : Bool :=
  !s.stores.input.isEmpty || !s.stores.data.isEmpty

/-- `archiveProject` from the project server. -/
def archiveProject (name : String) (s : ServerState) :
    Except String ServerState :=
  if !hasCurrentProject s then .error "No current project to archive"
  else .ok
    { archive := archiveInsert s.archive name s.stores
      current := none
      stores := emptyStores }

/-- `listProjects`, reduced to the `(name, isCurrent)` annotations (dates
and sizes are filesystem metadata); archived projects first, then the
current project when it exists and is non-empty, sorted by name
descending. -/
def listProjects (s : ServerState) : List (String × Bool) :=
  let archived := s.archive.map (fun e => (e.1, false))
  let withCurrent := archived ++
    (match s.current with
     | some n => if hasCurrentProject s then [(n, true)] else []
     | none => [])
  withCurrent.mergeSort (fun a b => b.1 ≤ a.1)

/-- Whether two dots occur adjacently in a character list. -/
def hasDotDot : List Char → Bool
  | c :: d :: rest => (c = '.' && d = '.') || hasDotDot (d :: rest)
  | _ => false

/-- Name validation of `createProject`: rejects empty names and names
holding `/`, `\\` or `..`. -/
def validProjectName (name : String) : Bool :=
  !(name = "") && !(name.data.contains '/') && !(name.data.contains '\\') &&
    !(hasDotDot name.data)

/-- The collision-avoidance loop of `getUniqueProjectName`, with enough
fuel to exhaust the archive. -/
def uniqueNameGo (archiveNames : List String) (baseName : String) :
    Nat → Nat → String → String
  | 0, _, name => name
  | fuel + 1, suffix, name =>
    if archiveNames.contains name then
      uniqueNameGo archiveNames baseName fuel (suffix + 1)
        (baseName ++ "-" ++ toString (suffix + 1))
    else name

/-- `getUniqueProjectName`: append `-2`, `-3`, … while the name exists in
the archive. -/
def getUniqueProjectName (archiveNames : List String)
    (baseName : String) : String :=
  uniqueNameGo archiveNames baseName (archiveNames.length + 1) 1 baseName

/-- `createProject` from the project server: validate the name, archive a
non-empty current project (propagating failure), pick a collision-free
name, create empty-ish working directories (`mkdirSync` keeps whatever
content is present) and set the new name current. -/
def createProject (name : String) (s : ServerState) :
    Except String (String × ServerState) :=
  if !validProjectName name then .error "Invalid project name"
  else
    let archived : Except String ServerState :=
      match s.current with
      | some cn => if hasCurrentProject s then archiveProject cn s else .ok s
      | none => .ok s
    match archived with
    | .error e => .error e
    | .ok s' =>
      let uniqueName := getUniqueProjectName (s'.archive.map (fun e => e.1)) name
      .ok (uniqueName, { s' with current := some uniqueName })

/-- **C10.** When both the input and the data store are empty — whatever
the output and temp stores hold — `hasCurrentProject` is false, so
`archiveProject` fails with "No current project to archive" and
`listProjects` reports no current project. -/
theorem emptyInputData_no_current (s : ServerState) (name : String)
    (hin : s.stores.input = []) (hdata : s.stores.data = []) :
    hasCurrentProject s = false ∧
    archiveProject name s = .error "No current project to archive" ∧
    (∀ p ∈ listProjects s, p.2 = false) := by
  have hcur : hasCurrentProject s = false := by
    simp [hasCurrentProject, hin, hdata]
  refine ⟨hcur, ?_, ?_⟩
  · unfold archiveProject
    rw [hcur]
    rfl
  · intro p hp
    unfold listProjects at hp
    have hperm := List.mergeSort_perm
      (s.archive.map (fun e => (e.1, false)) ++
        (match s.current with
         | some n => if hasCurrentProject s then [(n, true)] else []
         | none => []))
      (fun a b : String × Bool => decide (b.1 ≤ a.1))
    have hp' := hperm.mem_iff.1 hp
    rcases List.mem_append.1 hp' with h | h
    · obtain ⟨e, _, rfl⟩ := List.mem_map.1 h
      rfl
    · rcases hc : s.current with _ | n
      · rw [hc] at h
        simp at h
      · rw [hc, hcur] at h
        simp at h

/-- Witness for C10: a state whose output and temp stores are non-empty
but whose input and data stores are empty. -/
theorem emptyInputData_no_current_witness :
    hasCurrentProject ⟨[("p", emptyStores)], some "q",
      ⟨[], [], ["final.mp4"], ["scratch"]⟩⟩ = false ∧
    archiveProject "q" ⟨[("p", emptyStores)], some "q",
      ⟨[], [], ["final.mp4"], ["scratch"]⟩⟩
      = .error "No current project to archive" ∧
    (∀ p ∈ listProjects ⟨[("p", emptyStores)], some "q",
      ⟨[], [], ["final.mp4"], ["scratch"]⟩⟩, p.2 = false) :=
  emptyInputData_no_current
    ⟨[("p", emptyStores)], some "q", ⟨[], [], ["final.mp4"], ["scratch"]⟩⟩
    "q" rfl rfl

/-- **C7 (counterexample).** Running `createProject "a"`, filling the
current project, then `createProject "a"` again yields current project
`"a-2"` while the archive holds only the `"a"` entry: no `"a-2"` entry is
ever placed in the archive, contrary to the claim. -/
theorem createProject_twice_counterexample :
    createProject "a" ⟨[], none, emptyStores⟩
      = .ok ("a", ⟨[], some "a", emptyStores⟩) ∧
    createProject "a" ⟨[], some "a", ⟨["video.mp4"], [], [], []⟩⟩
      = .ok ("a-2",
          ⟨[("a", ⟨["video.mp4"], [], [], []⟩)], some "a-2", emptyStores⟩) ∧
    ¬("a-2" ∈ ([("a", (⟨["video.mp4"], [], [], []⟩ : ProjectStores))].map
        (fun e => e.1))) := by
  refine ⟨rfl, rfl, by decide⟩

/-- **C7 (amended).** `create("a")` with the first project current and
non-empty archives the first project under `"a"`, and the second project
becomes the fresh, empty current project under the collision-free name
`"a-2"` — present only as the current project, not in the archive. -/
theorem createProject_twice_amended :
    createProject "a" ⟨[], none, emptyStores⟩
      = .ok ("a", ⟨[], some "a", emptyStores⟩) ∧
    createProject "a" ⟨[], some "a", ⟨["video.mp4"], [], [], []⟩⟩
      = .ok ("a-2",
          ⟨[("a", ⟨["video.mp4"], [], [], []⟩)], some "a-2", emptyStores⟩) ∧
    ("a" ∈ ([("a", (⟨["video.mp4"], [], [], []⟩ : ProjectStores))].map
        (fun e => e.1))) ∧
    (⟨[("a", ⟨["video.mp4"], [], [], []⟩)], some "a-2",
        emptyStores⟩ : ServerState).stores = emptyStores := by
  refine ⟨rfl, rfl, by decide, rfl⟩

end CaptionsPlease
